import Mathlib

/-!
Verification of the byte-stream codecs of the file-compressor repository:
run-length encoding (src/include/rle.hpp and the `RLECompressor` copy in
src/main.cpp), Huffman coding (src/include/huffman.hpp), and LZW dictionary
coding (src/include/lzw.hpp and the `LZWCompressor` copy in src/main.cpp).

Byte buffers (`std::vector<uint8_t>`) are modelled as `List Nat`; claims that
depend on byte-ness carry an explicit `∀ b ∈ x, b < 256` hypothesis.
`std::unordered_map` dictionaries are modelled as association lists searched
front-to-back (`assoc`), with insertion modelled as prepending a binding; the
C++ maps have unique keys at every point where they are used, so the first
match is the binding.  `while` loops that advance an index are modelled by
recursion with an explicit fuel argument equal to the number of loop entries
an actual run can make, so every definition evaluates by kernel reduction.
-/

set_option maxHeartbeats 1000000
set_option maxRecDepth 100000

/-- First-match association-list lookup: model of `std::unordered_map::find`
followed by a read of the mapped value. -/
def assoc {α β : Type} [DecidableEq α] : α → List (α × β) → Option β
  | _, [] => none
  | k, (a, b) :: t => if k = a then some b else assoc k t

/-! ## RLE (src/include/rle.hpp) -/

/-- Length of the maximal all-`v` prefix of a list (uncapped).  The `while`
loop of `RLE::compress` counts `min (1 + runLen v rest) 255` elements for a
run starting at `v :: rest`. -/
def runLen (v : Nat) : List Nat → Nat
  | [] => 0
  | b :: rest => if b = v then runLen v rest + 1 else 0

/-- One pass of the `for` loop of `RLE::compress` (src/include/rle.hpp,
lines 14-25): read the byte at `i`, count up to 255 consecutive copies, emit
`(count, value)` and advance by `count`.  `fuel` bounds the number of loop
entries; `data.length` entries always suffice because `count ≥ 1`. -/
def rleGo : Nat → List Nat → List Nat
  | 0, _ => []
  | _ + 1, [] => []
  | fuel + 1, v :: rest =>
    let c := min (1 + runLen v rest) 255
    c :: v :: rleGo fuel (rest.drop (c - 1))

/-- Model of `RLE::compress` (src/include/rle.hpp, lines 9-27). -/
def RLE.compress (data : List Nat) : List Nat := rleGo data.length data

/-- Model of `RLE::decompress` (src/include/rle.hpp, lines 29-43): read
`(count, value)` pairs, expanding each; a trailing unpaired byte makes the
`i + 1 >= data.size()` guard `break` out, dropping it. -/
def RLE.decompress : List Nat → List Nat
  | c :: v :: rest => List.replicate c v ++ RLE.decompress rest
  | _ => []

/-- Model of `RLECompressor::decompress` (src/main.cpp, lines 52-66): the
loop body is guarded by `i + 1 < data.size()`, so a trailing unpaired byte is
skipped and the loop then terminates. -/
def RLECompressor.decompress : List Nat → List Nat
  | c :: v :: rest => List.replicate c v ++ RLECompressor.decompress rest
  | _ => []

lemma runLen_le_length (v : Nat) (l : List Nat) : runLen v l ≤ l.length := by
  induction l with
  | nil => simp [runLen]
  | cons b rest ih =>
    simp only [runLen, List.length_cons]
    split <;> omega

lemma take_runLen_eq_replicate (v : Nat) (l : List Nat) (k : Nat)
    (h : k ≤ runLen v l) : l.take k = List.replicate k v := by
  induction l generalizing k with
  | nil => simp [runLen] at h; simp [h]
  | cons b rest ih =>
    cases k with
    | zero => simp
    | succ k =>
      simp only [runLen] at h
      by_cases hb : b = v
      · rw [if_pos hb] at h
        simp [List.take_succ_cons, List.replicate_succ, hb, ih k (by omega)]
      · rw [if_neg hb] at h
        omega

lemma rleGo_decompress (fuel : Nat) (l : List Nat) (h : l.length ≤ fuel) :
    RLE.decompress (rleGo fuel l) = l := by
  induction fuel generalizing l with
  | zero =>
    have : l = [] := List.length_eq_zero.mp (by omega)
    simp [this, rleGo, RLE.decompress]
  | succ fuel ih =>
    match l with
    | [] => simp [rleGo, RLE.decompress]
    | v :: rest =>
      simp only [rleGo, RLE.decompress]
      have hlen : (rest.drop (min (1 + runLen v rest) 255 - 1)).length ≤ fuel := by
        simp only [List.length_drop]
        simp only [List.length_cons] at h
        omega
      rw [ih _ hlen]
      obtain ⟨c, hcdef⟩ : ∃ c, min (1 + runLen v rest) 255 = c + 1 :=
        ⟨min (1 + runLen v rest) 255 - 1, by omega⟩
      rw [hcdef]
      have hc1 : c + 1 - 1 = c := by omega
      rw [hc1, List.replicate_succ, List.cons_append,
        ← take_runLen_eq_replicate v rest c (by omega), List.take_append_drop]

/-- C5: for every byte buffer `x`, `RLE::decompress (RLE::compress x) = x`:
the run-length codec of src/include/rle.hpp round-trips exactly, including
the empty buffer, runs longer than 255 (split by the 255 cap), and arbitrary
content. -/
theorem rle_compress_decompress_roundtrip (x : List Nat) :
    RLE.decompress (RLE.compress x) = x :=
  rleGo_decompress x.length x le_rfl

lemma rle_decompress_eq_main : ∀ l : List Nat,
    RLE.decompress l = RLECompressor.decompress l
  | [] => rfl
  | [_] => rfl
  | _ :: _ :: rest => by
    simp [RLE.decompress, RLECompressor.decompress, rle_decompress_eq_main rest]

lemma rle_decompress_dropLast : ∀ l : List Nat, l.length % 2 = 1 →
    RLE.decompress l = RLE.decompress l.dropLast
  | [], h => by simp at h
  | [_], _ => rfl
  | c :: v :: rest, h => by
    simp only [List.length_cons] at h
    have hrest : rest.length % 2 = 1 := by omega
    have hne : rest ≠ [] := by
      intro he; rw [he] at hrest; simp at hrest
    rw [List.dropLast_cons_of_ne_nil (by simp), List.dropLast_cons_of_ne_nil hne]
    simp only [RLE.decompress]
    rw [rle_decompress_dropLast rest hrest]

/-- C9: an odd-length RLE stream decompresses exactly like the stream with
its trailing byte removed — the incomplete pair is silently dropped, no error
is raised — and the two decompressors (`RLE::decompress` in rle.hpp and
`RLECompressor::decompress` in main.cpp) agree on this drop policy (they in
fact agree on every input). -/
theorem rle_odd_stream_drop_policy (l : List Nat) (h : l.length % 2 = 1) :
    RLE.decompress l = RLE.decompress l.dropLast ∧
    RLECompressor.decompress l = RLECompressor.decompress l.dropLast ∧
    RLE.decompress l = RLECompressor.decompress l := by
  refine ⟨rle_decompress_dropLast l h, ?_, rle_decompress_eq_main l⟩
  rw [← rle_decompress_eq_main, ← rle_decompress_eq_main]
  exact rle_decompress_dropLast l h

/-- Witness for C9 at the concrete odd-length stream `[2, 7, 9]`. -/
theorem rle_odd_stream_drop_policy_witness :
    [2, 7, 9].length % 2 = 1 ∧
    (RLE.decompress [2, 7, 9] = RLE.decompress ([2, 7, 9] : List Nat).dropLast ∧
     RLECompressor.decompress [2, 7, 9]
       = RLECompressor.decompress ([2, 7, 9] : List Nat).dropLast ∧
     RLE.decompress [2, 7, 9] = RLECompressor.decompress [2, 7, 9]) :=
  ⟨by decide, rle_odd_stream_drop_policy [2, 7, 9] (by decide)⟩

lemma rleGo_even_and_counts (fuel : Nat) (l : List Nat) :
    (rleGo fuel l).length % 2 = 0 ∧
    ∀ i : Nat, 2 * i < (rleGo fuel l).length →
      1 ≤ (rleGo fuel l).getD (2 * i) 0 ∧ (rleGo fuel l).getD (2 * i) 0 ≤ 255 := by
  induction fuel generalizing l with
  | zero => simp [rleGo]
  | succ fuel ih =>
    match l with
    | [] => simp [rleGo]
    | v :: rest =>
      simp only [rleGo]
      obtain ⟨ihlen, ihcnt⟩ := ih (rest.drop (min (1 + runLen v rest) 255 - 1))
      constructor
      · simp only [List.length_cons]
        omega
      · intro i hi
        cases i with
        | zero =>
          simp only [Nat.mul_zero, List.getD_cons_zero]
          omega
        | succ i =>
          have h2 : 2 * (i + 1) = (2 * i) + 1 + 1 := by omega
          rw [h2]
          simp only [List.getD_cons_succ]
          apply ihcnt
          simp only [List.length_cons, h2] at hi
          omega

/-- C10: the output of `RLE::compress` always has even length and every byte
at an even index (a run count) lies between 1 and 255: no emitted run has
count 0. -/
theorem rle_compress_pairs_invariant (x : List Nat) :
    (RLE.compress x).length % 2 = 0 ∧
    ∀ i : Nat, 2 * i < (RLE.compress x).length →
      1 ≤ (RLE.compress x).getD (2 * i) 0 ∧ (RLE.compress x).getD (2 * i) 0 ≤ 255 :=
  rleGo_even_and_counts x.length x

/-- Witness for C10 at the concrete buffer `[5, 5, 5, 9]` (compressing to
`[3, 5, 1, 9]`): both run counts are in `[1, 255]`. -/
theorem rle_compress_pairs_invariant_witness :
    (2 * 1 < (RLE.compress [5, 5, 5, 9]).length) ∧
    1 ≤ (RLE.compress [5, 5, 5, 9]).getD (2 * 1) 0 ∧
    (RLE.compress [5, 5, 5, 9]).getD (2 * 1) 0 ≤ 255 :=
  ⟨by decide, (rle_compress_pairs_invariant [5, 5, 5, 9]).2 1 (by decide)⟩

/-! ## LZW (src/include/lzw.hpp and `LZWCompressor` in src/main.cpp) -/

/-- The initial string-to-code dictionary of `LZW::compress`
(src/include/lzw.hpp, lines 12-15): one entry per single byte 0..255. -/
def lzwEncInit : List (List Nat × Nat) := (List.range 256).map (fun i => ([i], i))

/-- The initial code-to-string dictionary of `LZW::decompress`
(src/include/lzw.hpp, lines 48-51). -/
def lzwDecInit : List (Nat × List Nat) := (List.range 256).map (fun i => (i, [i]))

/-- The encoding loop of `LZW::compress` (src/include/lzw.hpp, lines 21-35),
returning the emitted code sequence (the `result` vector).  `d` is the
dictionary, `n` is `dict_size`, `cur` is `current`; there is no cap on `n`.
The empty list case also performs the final `if (!current.empty())` flush. -/
def lzwEncGo (d : List (List Nat × Nat)) (n : Nat) (cur : List Nat) :
    List Nat → List Nat
  | [] => if cur = [] then [] else [(assoc cur d).getD 0]
  | b :: r =>
    let nx := cur ++ [b]
    match assoc nx d with
    | some _ => lzwEncGo d n nx r
    | none => (assoc cur d).getD 0 :: lzwEncGo ((nx, n) :: d) (n + 1) [b] r

/-- Same loop, returning the final `(dictionary, dict_size, current)` state
instead of the emitted codes (the flush emits nothing into the state). -/
def lzwEncRun (d : List (List Nat × Nat)) (n : Nat) (cur : List Nat) :
    List Nat → List (List Nat × Nat) × Nat × List Nat
  | [] => (d, n, cur)
  | b :: r =>
    let nx := cur ++ [b]
    match assoc nx d with
    | some _ => lzwEncRun d n nx r
    | none => lzwEncRun ((nx, n) :: d) (n + 1) [b] r

/-- The code sequence produced by `LZW::compress` before 2-byte packing. -/
def LZW.compressCodes (data : List Nat) : List Nat :=
  lzwEncGo lzwEncInit 256 [] data

/-- The final encoder state of `LZW::compress` on a given input. -/
def LZW.compressState (data : List Nat) : List (List Nat × Nat) × Nat × List Nat :=
  lzwEncRun lzwEncInit 256 [] data

/-- Model of `LZW::compress` (src/include/lzw.hpp, lines 11-43): each emitted
`int` code is packed little-endian as two bytes `code & 0xFF` and
`(code >> 8) & 0xFF`. -/
def LZW.compress (data : List Nat) : List Nat :=
  (LZW.compressCodes data).flatMap (fun c => [c % 256, c / 256 % 256])

/-- The code-reading loop of `LZW::decompress` (src/include/lzw.hpp, lines
53-57): `data[i] | (data[i+1] << 8)`; for bytes the bitwise or is addition. -/
def unpackCodes : List Nat → List Nat
  | a :: b :: r => (a + b * 256) :: unpackCodes r
  | _ => []

/-- The decoding loop of `LZW::decompress` (src/include/lzw.hpp, lines
72-90).  `prev` is `current` at entry to an iteration; `none` models the
`return {}` on a code that is neither in the dictionary nor equal to
`dict_size`.  `current[0]` / `entry[0]` are modelled by `headD 0` (reading
`s[s.size()]` of a `std::string` yields the null character). -/
def lzwDecGo (dd : List (Nat × List Nat)) (n : Nat) (prev : List Nat) :
    List Nat → Option (List Nat)
  | [] => some []
  | c :: r =>
    match (match assoc c dd with
           | some e => some e
           | none => if c = n then some (prev ++ [prev.headD 0]) else none) with
    | none => none
    | some entry =>
      (lzwDecGo ((n, prev ++ [entry.headD 0]) :: dd) (n + 1) entry r).map
        (fun l => entry ++ l)

/-- Model of `LZW::decompress` (src/include/lzw.hpp, lines 45-92): odd-length
input returns `{}`; the first code is read outside the loop with
`dictionary[codes[0]]` (empty string if absent); an invalid code later makes
the whole call return `{}`. -/
def LZW.decompress (data : List Nat) : List Nat :=
  if data.length % 2 ≠ 0 then []
  else
    match unpackCodes data with
    | [] => []
    | c0 :: rest =>
      let cur := (assoc c0 lzwDecInit).getD []
      match lzwDecGo lzwDecInit 256 cur rest with
      | some out => cur ++ out
      | none => []

/-- The encoding loop of `LZWCompressor::compress` (src/main.cpp, lines
197-209): identical to `lzwEncGo` except that the insertion of a new
dictionary entry is guarded by `next_code < 65535`. -/
def lzwEncGoCap (d : List (List Nat × Nat)) (n : Nat) (cur : List Nat) :
    List Nat → List Nat
  | [] => if cur = [] then [] else [(assoc cur d).getD 0]
  | b :: r =>
    let nx := cur ++ [b]
    match assoc nx d with
    | some _ => lzwEncGoCap d n nx r
    | none =>
      (assoc cur d).getD 0 ::
        (if n < 65535 then lzwEncGoCap ((nx, n) :: d) (n + 1) [b] r
         else lzwEncGoCap d n [b] r)

/-- Model of `LZWCompressor::compress` (src/main.cpp, lines 186-216),
returning the `std::vector<uint16_t>` of codes. -/
def LZWCompressor.compress (data : List Nat) : List Nat :=
  lzwEncGoCap lzwEncInit 256 [] data

/-- The decoding loop of `LZWCompressor::decompress` (src/main.cpp, lines
229-249): an unknown code that is not `next_code` throws
`"Invalid LZW code"`; insertion is guarded by `!previous.empty()` and
`next_code < 65535`. -/
def lzwMDecGo (dd : List (Nat × List Nat)) (n : Nat) (prev : List Nat) :
    List Nat → Except String (List Nat)
  | [] => .ok []
  | c :: r =>
    match (match assoc c dd with
           | some e => some e
           | none => if c = n then some (prev ++ [prev.headD 0]) else none) with
    | none => .error "Invalid LZW code"
    | some cur =>
      match (if prev ≠ [] ∧ n < 65535
             then ((n, prev ++ [cur.headD 0]) :: dd, n + 1) else (dd, n)) with
      | (dd2, n2) => (lzwMDecGo dd2 n2 cur r).map (fun l => cur ++ l)

/-- Model of `LZWCompressor::decompress` (src/main.cpp, lines 218-252);
`previous` starts empty and the whole code list is processed by one loop. -/
def LZWCompressor.decompress (codes : List Nat) : Except String (List Nat) :=
  lzwMDecGo lzwDecInit 256 [] codes

/-- State-passing version of the `LZWCompressor::decompress` loop, returning
the `(dictionary, next_code, previous)` state after an error-free prefix. -/
def lzwMDecRun (dd : List (Nat × List Nat)) (n : Nat) (prev : List Nat) :
    List Nat → Except String (List (Nat × List Nat) × Nat × List Nat)
  | [] => .ok (dd, n, prev)
  | c :: r =>
    match (match assoc c dd with
           | some e => some e
           | none => if c = n then some (prev ++ [prev.headD 0]) else none) with
    | none => .error "Invalid LZW code"
    | some cur =>
      match (if prev ≠ [] ∧ n < 65535
             then ((n, prev ++ [cur.headD 0]) :: dd, n + 1) else (dd, n)) with
      | (dd2, n2) => lzwMDecRun dd2 n2 cur r

lemma assoc_mem {α β : Type} [DecidableEq α] {k : α} {v : β} :
    ∀ {l : List (α × β)}, assoc k l = some v → (k, v) ∈ l
  | [], h => by simp [assoc] at h
  | (a, b) :: t, h => by
    simp only [assoc] at h
    split at h
    · rename_i he
      obtain rfl := he
      obtain rfl : b = v := by injection h
      exact List.mem_cons_self _ _
    · exact List.mem_cons_of_mem _ (assoc_mem h)

lemma lzwEncInit_values_lt (p : List Nat × Nat) (hp : p ∈ lzwEncInit) :
    p.2 < 256 := by
  simp only [lzwEncInit, List.mem_map, List.mem_range] at hp
  obtain ⟨i, hi, rfl⟩ := hp
  exact hi

lemma lzwEncGoCap_codes_lt :
    ∀ (r : List Nat) (d : List (List Nat × Nat)) (n : Nat) (cur : List Nat),
      (∀ p ∈ d, p.2 < n) → n ≤ 65535 →
      ∀ c ∈ lzwEncGoCap d n cur r, c < 65535 := by
  intro r
  induction r with
  | nil =>
    intro d n cur hd hn c hc
    simp only [lzwEncGoCap] at hc
    split at hc
    · simp at hc
    · simp only [List.mem_singleton] at hc
      subst hc
      cases ha : assoc cur d with
      | none => simp [ha]
      | some v =>
        have := hd _ (assoc_mem ha)
        simp only [ha, Option.getD_some]
        omega
  | cons b r ih =>
    intro d n cur hd hn c hc
    simp only [lzwEncGoCap] at hc
    split at hc
    · exact ih d n _ hd hn c hc
    · rcases List.mem_cons.mp hc with hc | hc
      · subst hc
        cases ha : assoc cur d with
        | none => simp [ha]
        | some v =>
          have := hd _ (assoc_mem ha)
          simp only [ha, Option.getD_some]
          omega
      · split at hc
        · rename_i hlt
          refine ih _ (n + 1) _ ?_ (by omega) c hc
          intro p hp
          rcases List.mem_cons.mp hp with hp | hp
          · subst hp; omega
          · have := hd _ hp; omega
        · exact ih d n _ hd hn c hc

/-- C2 (amended): every code in the `std::vector<uint16_t>` produced by
`LZWCompressor::compress` (src/main.cpp) is below 65535: the
`next_code < 65535` guard freezes the dictionary before the 16-bit code
space is exceeded, and encoding continues without error using existing
entries.  (The uncapped `LZW::compress` of src/include/lzw.hpp does not have
this property; see the counterexample.) -/
theorem lzw_cap_codes_16bit (data : List Nat) (c : Nat)
    (hc : c ∈ LZWCompressor.compress data) : c < 65535 :=
  lzwEncGoCap_codes_lt data lzwEncInit 256 [] lzwEncInit_values_lt (by omega) c hc

/-- Witness for C2's amended theorem: on input `[65, 65, 65, 66]` the capped
encoder emits the fresh dictionary code 256, and it is below 65535. -/
theorem lzw_cap_codes_16bit_witness :
    256 ∈ LZWCompressor.compress [65, 65, 65, 66] ∧ 256 < 65535 :=
  ⟨by decide, lzw_cap_codes_16bit [65, 65, 65, 66] 256 (by decide)⟩

lemma lzwMDecGo_append_error (pre : List Nat) :
    ∀ (suf : List Nat) (dd : List (Nat × List Nat)) (n : Nat) (prev : List Nat)
      (dd2 : List (Nat × List Nat)) (n2 : Nat) (prev2 : List Nat) (e : String),
      lzwMDecRun dd n prev pre = .ok (dd2, n2, prev2) →
      lzwMDecGo dd2 n2 prev2 suf = .error e →
      lzwMDecGo dd n prev (pre ++ suf) = .error e := by
  induction pre with
  | nil =>
    intro suf dd n prev dd2 n2 prev2 e hrun herr
    simp only [lzwMDecRun, Except.ok.injEq, Prod.mk.injEq] at hrun
    obtain ⟨rfl, rfl, rfl⟩ := hrun
    simpa using herr
  | cons c pre ih =>
    intro suf dd n prev dd2 n2 prev2 e hrun herr
    simp only [lzwMDecRun] at hrun
    simp only [List.cons_append, lzwMDecGo]
    split at hrun
    · exact absurd hrun (by simp)
    · rename_i entry hentry
      simp only [List.append_eq]
      rw [ih suf _ _ _ dd2 n2 prev2 e hrun herr]
      rfl

/-- C7 (amended): in `LZWCompressor::decompress` (src/main.cpp), a code that
at its position is neither a known dictionary entry nor the next code to be
assigned makes the whole call fail with the distinguishable
`"Invalid LZW code"` error.  (The other decoder, `LZW::decompress` in
src/include/lzw.hpp, instead returns an empty buffer indistinguishable from
a normal empty output; see the counterexample.) -/
theorem lzw_main_invalid_code_error (pre suf : List Nat) (c : Nat)
    (dd2 : List (Nat × List Nat)) (n2 : Nat) (prev2 : List Nat)
    (hrun : lzwMDecRun lzwDecInit 256 [] pre = .ok (dd2, n2, prev2))
    (hc : assoc c dd2 = none) (hcn : c ≠ n2) :
    LZWCompressor.decompress (pre ++ c :: suf) = .error "Invalid LZW code" := by
  unfold LZWCompressor.decompress
  refine lzwMDecGo_append_error pre (c :: suf) _ _ _ dd2 n2 prev2 _ hrun ?_
  simp [lzwMDecGo, hc, hcn]

/-- Witness for C7's amended theorem: the code stream `[65, 300]` — code 300
is not in the 256-entry base dictionary and is not the next assignable code
256 — makes `LZWCompressor::decompress` throw `"Invalid LZW code"`. -/
theorem lzw_main_invalid_code_error_witness :
    lzwMDecRun lzwDecInit 256 [] [65] = .ok (lzwDecInit, 256, [65]) ∧
    assoc 300 lzwDecInit = none ∧ (300 : Nat) ≠ 256 ∧
    LZWCompressor.decompress ([65] ++ 300 :: []) = .error "Invalid LZW code" :=
  ⟨rfl, by decide, by decide,
    lzw_main_invalid_code_error [65] [] 300 lzwDecInit 256 [65] rfl (by decide)
      (by decide)⟩

/-- C7 counterexample: `LZW::decompress` in src/include/lzw.hpp does NOT
fail with a distinguishable error on an invalid code.  The byte stream
`[65, 0, 44, 1]` encodes the codes `[65, 300]`; code 300 is absent from the
dictionary and differs from `dict_size = 256`, yet decompression returns the
plain empty buffer — exactly what decompressing the empty stream returns. -/
theorem lzw_hpp_invalid_code_counterexample :
    unpackCodes [65, 0, 44, 1] = [65, 300] ∧
    LZW.decompress [65, 0, 44, 1] = [] ∧
    LZW.decompress [] = [] :=
  ⟨rfl, rfl, rfl⟩

/-! ## Huffman (src/include/huffman.hpp) -/

/-- `HuffmanNode`: a data byte and two owning child pointers, either of
which may be null.  The four constructors enumerate the (left null?, right
null?) combinations, so `HTree` is exactly `(uint8_t, shared_ptr, shared_ptr)`
with the `frequency` field omitted (it is dead after construction and is
carried separately while the priority queue is alive). -/
inductive HTree where
  | lf (data : Nat)
  | nl (data : Nat) (left : HTree)
  | nr (data : Nat) (right : HTree)
  | nb (data : Nat) (left right : HTree)
deriving DecidableEq, Repr

/-- The `left` pointer of a node. -/
def HTree.left : HTree → Option HTree
  | .lf _ => none
  | .nl _ l => some l
  | .nr _ _ => none
  | .nb _ l _ => some l

/-- The `right` pointer of a node. -/
def HTree.right : HTree → Option HTree
  | .lf _ => none
  | .nl _ _ => none
  | .nr _ r => some r
  | .nb _ _ r => some r

/-- The `data` field of a node. -/
def HTree.data : HTree → Nat
  | .lf d => d
  | .nl d _ => d
  | .nr d _ => d
  | .nb d _ _ => d

/-- The C++ leaf test `!node->left && !node->right`. -/
def HTree.isLeaf : HTree → Bool
  | .lf _ => true
  | _ => false

/-- Assemble a node from a data byte and two child pointers (used by
`deserializeTree`, which first builds the node and then sets the fields). -/
def mkNode (d : Nat) : Option HTree → Option HTree → HTree
  | none, none => .lf d
  | some l, none => .nl d l
  | none, some r => .nr d r
  | some l, some r => .nb d l r

/-- Model of `Huffman::generateCodes` (src/include/huffman.hpp, lines
27-40): pre-order walk accumulating `"0"` on a left edge and `"1"` on a
right edge (here `false`/`true`), recording `code.empty() ? "0" : code` at a
leaf.  The C++ mutates a `std::unordered_map`; recording is modelled by
prepending, and the left subtree is visited before the right one, so a later
(right-subtree) assignment to the same byte shadows an earlier one under
`assoc`, exactly like map assignment.  A null child contributes nothing. -/
def generateCodes : HTree → List Bool → List (Nat × List Bool) → List (Nat × List Bool)
  | .lf d, code, cs => (d, if code = [] then [false] else code) :: cs
  | .nl _ l, code, cs => generateCodes l (code ++ [false]) cs
  | .nr _ r, code, cs => generateCodes r (code ++ [true]) cs
  | .nb _ l r, code, cs =>
    generateCodes r (code ++ [true]) (generateCodes l (code ++ [false]) cs)

/-- The frequency table of `Huffman::compress` (src/include/huffman.hpp,
lines 46-49) listed in ascending byte order.  `std::unordered_map` iteration
order is unspecified; the proved properties do not depend on the order, and
concrete evaluations use this canonical one. -/
def huffFreqs (data : List Nat) : List (Nat × Nat) :=
  (List.range 256).filterMap
    (fun v => if data.count v = 0 then none else some (v, data.count v))

/-- `pq.top()` and `pq.pop()` for the `std::priority_queue` with comparator
`a->frequency > b->frequency`: extract an element of minimal frequency.
Which element of equal minimal frequency is on top of the binary heap is
implementation-defined; this model takes the leftmost one (insertion
order).  The proved properties are insensitive to the tie order. -/
def extractMin : List (HTree × Nat) → Option ((HTree × Nat) × List (HTree × Nat))
  | [] => none
  | x :: xs =>
    match extractMin xs with
    | none => some (x, [])
    | some (m, rest) => if x.2 ≤ m.2 then some (x, xs) else some (m, x :: rest)

/-- The merge loop `while (pq.size() > 1)` of `Huffman::compress`
(src/include/huffman.hpp, lines 57-66): pop the two lowest-frequency nodes,
merge them under a fresh internal node (data 0) with the summed frequency,
push it back.  `fuel` bounds the number of loop entries; each entry shrinks
the queue by one, so `pq.length` entries always suffice. -/
def buildLoop : Nat → List (HTree × Nat) → List (HTree × Nat)
  | 0, pq => pq
  | fuel + 1, pq =>
    if pq.length ≤ 1 then pq
    else
      match extractMin pq with
      | none => pq
      | some (l, pq1) =>
        match extractMin pq1 with
        | none => pq
        | some (r, pq2) => buildLoop fuel (pq2 ++ [(.nb 0 l.1 r.1, l.2 + r.2)])

/-- Tree construction of `Huffman::compress`: seed one leaf per distinct
byte, run the merge loop, read `pq.top()`. -/
def buildTree (data : List Nat) : Option HTree :=
  let pq := (huffFreqs data).map (fun p => (HTree.lf p.1, p.2))
  match buildLoop pq.length pq with
  | [(root, _)] => some root
  | _ => none

/-- `std::stoi(byte_str, 0, 2)`: value of a bit string, most significant
bit first. -/
def byteVal (bs : List Bool) : Nat := bs.foldl (fun a b => 2 * a + cond b 1 0) 0

/-- The packing loop of `Huffman::compress` (src/include/huffman.hpp, lines
78-83): take 8 bits at a time, right-pad the last chunk with `'0'`, convert.
`fuel` bounds the number of loop entries (one per 8 bits, so `bits.length`
suffices). -/
def pack : Nat → List Bool → List Nat
  | 0, _ => []
  | _ + 1, [] => []
  | fuel + 1, bits =>
    byteVal (bits.take 8 ++ List.replicate (8 - (bits.take 8).length) false)
      :: pack fuel (bits.drop 8)

/-- The code table of `Huffman::compress` on a given input (the map `codes`
after `generateCodes(root, "", codes)`). -/
def huffCodeTable (data : List Nat) : List (Nat × List Bool) :=
  match buildTree data with
  | none => []
  | some root => generateCodes root [] []

/-- The concatenated bit string `encoded` of `Huffman::compress` (lines
73-76); `codes[byte]` on a byte without an entry default-constructs the
empty string, modelled by `getD []`. -/
def huffEncodedBits (data : List Nat) : List Bool :=
  data.flatMap (fun b => (assoc b (huffCodeTable data)).getD [])

/-- Model of `Huffman::compress` (src/include/huffman.hpp, lines 43-86):
returns the packed bytes and the tree root (null for empty input). -/
def Huffman.compress (data : List Nat) : List Nat × Option HTree :=
  if data = [] then ([], none)
  else
    match buildTree data with
    | none => ([], none)
    | some root =>
      ((pack (huffEncodedBits data).length (huffEncodedBits data)), some root)

/-- The exact total bit count of the encoding — the sum over the input
bytes of the length of each byte's code — as computed for the container
metadata by the `compressed_bits` block of src/main.cpp (lines 796-813). -/
def huffTotalBits (data : List Nat) : Nat :=
  (data.map (fun b => ((assoc b (huffCodeTable data)).getD []).length)).sum

/-- `std::bitset<8>(byte).to_string()`: the 8 bits of a byte, most
significant first. -/
def bitsOfByte (n : Nat) : List Bool := (List.range 8).map (fun i => n.testBit (7 - i))

/-- The tree walk of `Huffman::decompress` (src/include/huffman.hpp, lines
104-116): for each bit move `current` to the left (bit `'0'`/`false`) or
right (bit `'1'`/`true`) child, then test `!current->left &&
!current->right`.  If the moved-to pointer is null, the C++ dereferences a
null pointer; that crash is modelled as `none`. -/
def decodeBits (root : HTree) : HTree → List Bool → Option (List Nat)
  | _, [] => some []
  | cur, b :: rest =>
    match (if b then cur.right else cur.left) with
    | none => none
    | some c =>
      if c.isLeaf then (decodeBits root root rest).map (fun l => c.data :: l)
      else decodeBits root c rest

/-- Model of `Huffman::decompress` (src/include/huffman.hpp, lines 88-119):
null root or empty payload returns an empty buffer; the payload bits are
truncated to `original_bits` only when `0 < original_bits < length`; then
the tree walk runs (with `none` for the null-dereference crash). -/
def Huffman.decompress (compressed : List Nat) (root : Option HTree)
    (originalBits : Nat) : Option (List Nat) :=
  match root with
  | none => some []
  | some r =>
    if compressed = [] then some []
    else
      let bits := compressed.flatMap bitsOfByte
      let bits :=
        if 0 < originalBits ∧ originalBits < bits.length
        then bits.take originalBits else bits
      decodeBits r r bits

/-- Model of `serializeTree` (src/include/huffman.hpp, lines 122-140) on a
non-null node: marker 1 plus the data byte for a leaf (both children null),
otherwise marker 2 followed by the serialized left and right children, a
null child contributing the single marker 0. -/
def serializeNode : HTree → List Nat
  | .lf d => [1, d]
  | .nl _ l => 2 :: (serializeNode l ++ [0])
  | .nr _ r => 2 :: (0 :: serializeNode r)
  | .nb _ l r => 2 :: (serializeNode l ++ serializeNode r)

/-- Model of `serializeTree` including the null case (marker 0). -/
def serializeTree : Option HTree → List Nat
  | none => [0]
  | some t => serializeNode t

/-- Model of `deserializeTree` (src/include/huffman.hpp, lines 142-169),
reading from the front of the remaining byte list (the C++ `offset` into the
full buffer): offset beyond the end yields a null tree; marker 0 a null
tree; marker 1 a leaf from the next byte, or `"Corrupted tree data"` if the
stream is exhausted; marker 2 an internal node from two recursive reads; any
other marker `"Invalid tree marker"`.  The returned remainder carries its
length bound to justify termination of the second recursive call. -/
def deserializeTree : (data : List Nat) →
    Except String (Option HTree × {rest : List Nat // rest.length ≤ data.length})
  | [] => .ok (none, ⟨[], by simp⟩)
  | m :: rest =>
    if m = 0 then .ok (none, ⟨rest, by simp⟩)
    else if m = 1 then
      match rest with
      | [] => .error "Corrupted tree data"
      | d :: rest2 => .ok (some (.lf d), ⟨rest2, by simp [List.length_cons]; omega⟩)
    else if m = 2 then
      match deserializeTree rest with
      | .error e => .error e
      | .ok (l, ⟨r1, h1⟩) =>
        match deserializeTree r1 with
        | .error e => .error e
        | .ok (r, ⟨r2, h2⟩) =>
          .ok (some (mkNode 0 l r), ⟨r2, by simp only [List.length_cons]; omega⟩)
    else .error "Invalid tree marker"
termination_by data => data.length
decreasing_by
  · simp only [List.length_cons]; omega
  · simp only [List.length_cons]; omega

/-- `deserializeTree` with the length bound on the remainder erased. -/
def deserializeTreeR (data : List Nat) : Except String (Option HTree × List Nat) :=
  (deserializeTree data).map (fun p => (p.1, p.2.val))

/-- C1: evaluation at the failing input.  For 10 repetitions of byte 0x41
(65), `Huffman::compress` does yield a single-leaf tree, the packed payload
`[0, 0]`, and an exact total bit count of 10 — but `Huffman::decompress` on
that payload does not reproduce the input: its walk executes
`current = current->left` on the leaf root, whose child pointers are null,
and dereferences the null pointer (modelled as `none`) instead of emitting
the leaf value ten times. -/
theorem huffman_single_leaf_crash :
    Huffman.compress (List.replicate 10 65) = ([0, 0], some (.lf 65)) ∧
    huffTotalBits (List.replicate 10 65) = 10 ∧
    Huffman.decompress [0, 0] (some (.lf 65)) 10 = none :=
  ⟨rfl, rfl, rfl⟩

/-- C8 counterexample: for the input `"aaab"` (`[97, 97, 97, 98]`), the code
table produced by `Huffman::compress` assigns codes of length 1 to both
'a' (97) and 'b' (98) — with only two distinct symbols the tree has exactly
two leaves at depth 1 — so 'a' does NOT receive a strictly shorter code
than 'b'. -/
theorem huffman_aaab_codes_not_strictly_shorter :
    ((assoc 97 (huffCodeTable [97, 97, 97, 98])).getD []).length = 1 ∧
    ((assoc 98 (huffCodeTable [97, 97, 97, 98])).getD []).length = 1 ∧
    ¬ ((assoc 97 (huffCodeTable [97, 97, 97, 98])).getD []).length
        < ((assoc 98 (huffCodeTable [97, 97, 97, 98])).getD []).length :=
  ⟨rfl, rfl, by decide⟩

/-- C8 (amended): for the input `"aaab"`, 'a' receives a code no longer
than 'b''s (both are exactly one bit), and the compressed result together
with the tree and the exact bit count decompresses back to `"aaab"`. -/
theorem huffman_aaab_roundtrip :
    ((assoc 97 (huffCodeTable [97, 97, 97, 98])).getD []).length
      ≤ ((assoc 98 (huffCodeTable [97, 97, 97, 98])).getD []).length ∧
    Huffman.decompress (Huffman.compress [97, 97, 97, 98]).1
        (Huffman.compress [97, 97, 97, 98]).2 (huffTotalBits [97, 97, 97, 98])
      = some [97, 97, 97, 98] :=
  ⟨by decide, rfl⟩

/-- The shape-preserving normalization applied by a serialize/deserialize
round trip: leaf data is kept, internal node data becomes 0 (the
deserializer always builds internal nodes with `HuffmanNode(0)`). -/
def canonNode : HTree → HTree
  | .lf d => .lf d
  | .nl _ l => .nl 0 (canonNode l)
  | .nr _ r => .nr 0 (canonNode r)
  | .nb _ l r => .nb 0 (canonNode l) (canonNode r)

/-- `canonNode` lifted to a possibly-null tree. -/
def canonOpt : Option HTree → Option HTree
  | none => none
  | some t => some (canonNode t)

lemma deserializeTree_eq_ok {data : List Nat} {t : Option HTree} {rest : List Nat}
    (hle : rest.length ≤ data.length)
    (h : deserializeTreeR data = .ok (t, rest)) :
    deserializeTree data = .ok (t, ⟨rest, hle⟩) := by
  unfold deserializeTreeR at h
  cases hd : deserializeTree data with
  | error e => rw [hd] at h; simp [Except.map] at h
  | ok p =>
    obtain ⟨pt, ⟨pr, hpr⟩⟩ := p
    rw [hd] at h
    simp only [Except.map, Except.ok.injEq, Prod.mk.injEq] at h
    obtain ⟨rfl, rfl⟩ := h
    rfl

lemma length_le_append_left {α : Type} (a b : List α) : b.length ≤ (a ++ b).length := by
  simp

lemma deser_serializeNode (t : HTree) : ∀ (extra : List Nat),
    deserializeTreeR (serializeNode t ++ extra) = .ok (some (canonNode t), extra) := by
  induction t with
  | lf d =>
    intro extra
    simp [serializeNode, deserializeTreeR, deserializeTree, canonNode, Except.map]
  | nl d l ihl =>
    intro extra
    simp only [serializeNode, List.cons_append, List.append_assoc, List.singleton_append,
      List.nil_append]
    unfold deserializeTreeR
    rw [deserializeTree.eq_def]
    dsimp only
    rw [if_neg (by decide : ¬ (2 : Nat) = 0), if_neg (by decide : ¬ (2 : Nat) = 1),
      if_pos (by decide : (2 : Nat) = 2)]
    rw [deserializeTree_eq_ok (length_le_append_left _ _) (ihl (0 :: extra))]
    dsimp only
    rw [deserializeTree.eq_def]
    dsimp only
    rw [if_pos (rfl : (0 : Nat) = 0)]
    simp [canonNode, mkNode, Except.map]
  | nr d r ihr =>
    intro extra
    simp only [serializeNode, List.cons_append, List.append_assoc, List.singleton_append,
      List.nil_append]
    unfold deserializeTreeR
    rw [deserializeTree.eq_def]
    dsimp only
    rw [if_neg (by decide : ¬ (2 : Nat) = 0), if_neg (by decide : ¬ (2 : Nat) = 1),
      if_pos (by decide : (2 : Nat) = 2)]
    rw [deserializeTree.eq_def]
    dsimp only
    rw [if_pos (rfl : (0 : Nat) = 0)]
    dsimp only
    rw [deserializeTree_eq_ok (length_le_append_left _ _) (ihr extra)]
    simp [canonNode, mkNode, Except.map]
  | nb d l r ihl ihr =>
    intro extra
    simp only [serializeNode, List.cons_append, List.append_assoc]
    unfold deserializeTreeR
    rw [deserializeTree.eq_def]
    dsimp only
    rw [if_neg (by decide : ¬ (2 : Nat) = 0), if_neg (by decide : ¬ (2 : Nat) = 1),
      if_pos (by decide : (2 : Nat) = 2)]
    rw [deserializeTree_eq_ok (length_le_append_left _ _) (ihl (serializeNode r ++ extra))]
    dsimp only
    rw [deserializeTree_eq_ok (length_le_append_left _ _) (ihr extra)]
    simp [canonNode, mkNode, Except.map]

/-- C6 counterexample: on the byte stream `[2]` — an Internal marker with
the stream exhausted before either required child — `deserializeTree` does
NOT fail with a CorruptedTreeData error: each exhausted recursive read
returns a null child (the `offset >= data.size()` branch), so the call
succeeds with an internal node whose two child pointers are both null. -/
theorem deserializeTree_truncated_internal_counterexample :
    deserializeTreeR [2] = .ok (some (mkNode 0 none none), []) := by
  simp [deserializeTreeR, deserializeTree, mkNode, Except.map]

/-- C6 (amended): `deserializeTree` fails with `"Invalid tree marker"`
exactly on a marker byte outside {0, 1, 2} and with `"Corrupted tree data"`
when the stream is exhausted right after a Leaf marker; exhaustion at a node
position — including before an Internal node's children — silently yields a
null subtree instead of an error; and on every output of `serializeTree` it
succeeds, consuming the whole stream and rebuilding the tree shape (internal
node data is reset to 0). -/
theorem deserializeTree_failure_characterization :
    (∀ t : Option HTree, deserializeTreeR (serializeTree t) = .ok (canonOpt t, [])) ∧
    (∀ (m : Nat) (rest : List Nat), 3 ≤ m →
      deserializeTreeR (m :: rest) = .error "Invalid tree marker") ∧
    deserializeTreeR [1] = .error "Corrupted tree data" ∧
    deserializeTreeR [] = .ok (none, []) ∧
    deserializeTreeR [2] = .ok (some (mkNode 0 none none), []) := by
  refine ⟨?_, ?_, ?_, ?_, ?_⟩
  · intro t
    cases t with
    | none => simp [serializeTree, deserializeTreeR, deserializeTree, canonOpt, Except.map]
    | some t =>
      have h := deser_serializeNode t []
      rw [List.append_nil] at h
      simpa [serializeTree, canonOpt] using h
  · intro m rest hm
    unfold deserializeTreeR
    rw [deserializeTree.eq_def]
    dsimp only
    rw [if_neg (by omega), if_neg (by omega), if_neg (by omega)]
    rfl
  · simp [deserializeTreeR, deserializeTree, Except.map]
  · simp [deserializeTreeR, deserializeTree, Except.map]
  · simp [deserializeTreeR, deserializeTree, mkNode, Except.map]

/-- Witness for C6's amended theorem: marker byte 7 (outside {0,1,2}) fails
with the invalid-marker error. -/
theorem deserializeTree_failure_characterization_witness :
    (3 : Nat) ≤ 7 ∧ deserializeTreeR (7 :: [1, 1]) = .error "Invalid tree marker" :=
  ⟨by decide, deserializeTree_failure_characterization.2.1 7 [1, 1] (by decide)⟩

/-- The bytes stored at the leaves of a tree (left-to-right). -/
def leavesData : HTree → List Nat
  | .lf d => [d]
  | .nl _ l => leavesData l
  | .nr _ r => leavesData r
  | .nb _ l r => leavesData l ++ leavesData r

/-- `PathTo t p d`: following the edge labels `p` (`false` = left, `true` =
right) from `t` reaches a leaf holding `d`. -/
inductive PathTo : HTree → List Bool → Nat → Prop where
  | done (d : Nat) : PathTo (.lf d) [] d
  | goLeftNl (x : Nat) (l : HTree) (p : List Bool) (d : Nat) :
      PathTo l p d → PathTo (.nl x l) (false :: p) d
  | goLeftNb (x : Nat) (l r : HTree) (p : List Bool) (d : Nat) :
      PathTo l p d → PathTo (.nb x l r) (false :: p) d
  | goRightNr (x : Nat) (r : HTree) (p : List Bool) (d : Nat) :
      PathTo r p d → PathTo (.nr x r) (true :: p) d
  | goRightNb (x : Nat) (l r : HTree) (p : List Bool) (d : Nat) :
      PathTo r p d → PathTo (.nb x l r) (true :: p) d

lemma pathTo_nil {t : HTree} {d : Nat} (h : PathTo t [] d) : t = .lf d := by
  cases h; rfl

lemma pathTo_leaf {d' : Nat} {p : List Bool} {d : Nat}
    (h : PathTo (.lf d') p d) : p = [] ∧ d = d' := by
  cases h; exact ⟨rfl, rfl⟩

lemma isLeaf_iff (t : HTree) : t.isLeaf = true ↔ ∃ d, t = .lf d := by
  cases t <;> simp [HTree.isLeaf]

lemma decodeBits_step_left (root cur : HTree) {l : HTree} (hl : cur.left = some l)
    (bs : List Bool) :
    decodeBits root cur (false :: bs)
      = (if l.isLeaf then (decodeBits root root bs).map (fun z => l.data :: z)
         else decodeBits root l bs) := by
  simp [decodeBits, hl]

lemma decodeBits_step_right (root cur : HTree) {r : HTree} (hr : cur.right = some r)
    (bs : List Bool) :
    decodeBits root cur (true :: bs)
      = (if r.isLeaf then (decodeBits root root bs).map (fun z => r.data :: z)
         else decodeBits root r bs) := by
  simp [decodeBits, hr]

lemma decodeBits_path (root : HTree) {cur : HTree} {p : List Bool} {d : Nat}
    (h : PathTo cur p d) : ∀ rest : List Bool, p ≠ [] →
    decodeBits root cur (p ++ rest)
      = (decodeBits root root rest).map (fun l => d :: l) := by
  induction h with
  | done d => intro rest hne; exact absurd rfl hne
  | goLeftNl x l p d hsub ih =>
    intro rest _
    rw [List.cons_append, decodeBits_step_left root _ (rfl : (HTree.nl x l).left = some l)]
    by_cases hleaf : l.isLeaf
    · obtain ⟨d2, rfl⟩ := (isLeaf_iff l).mp hleaf
      obtain ⟨rfl, rfl⟩ := pathTo_leaf hsub
      simp [HTree.data, HTree.isLeaf]
    · have hp : p ≠ [] := by
        intro hnil; subst hnil
        exact hleaf (by rw [pathTo_nil hsub]; rfl)
      rw [if_neg hleaf]
      exact ih rest hp
  | goLeftNb x l r p d hsub ih =>
    intro rest _
    rw [List.cons_append,
      decodeBits_step_left root _ (rfl : (HTree.nb x l r).left = some l)]
    by_cases hleaf : l.isLeaf
    · obtain ⟨d2, rfl⟩ := (isLeaf_iff l).mp hleaf
      obtain ⟨rfl, rfl⟩ := pathTo_leaf hsub
      simp [HTree.data, HTree.isLeaf]
    · have hp : p ≠ [] := by
        intro hnil; subst hnil
        exact hleaf (by rw [pathTo_nil hsub]; rfl)
      rw [if_neg hleaf]
      exact ih rest hp
  | goRightNr x r p d hsub ih =>
    intro rest _
    rw [List.cons_append,
      decodeBits_step_right root _ (rfl : (HTree.nr x r).right = some r)]
    by_cases hleaf : r.isLeaf
    · obtain ⟨d2, rfl⟩ := (isLeaf_iff r).mp hleaf
      obtain ⟨rfl, rfl⟩ := pathTo_leaf hsub
      simp [HTree.data, HTree.isLeaf]
    · have hp : p ≠ [] := by
        intro hnil; subst hnil
        exact hleaf (by rw [pathTo_nil hsub]; rfl)
      rw [if_neg hleaf]
      exact ih rest hp
  | goRightNb x l r p d hsub ih =>
    intro rest _
    rw [List.cons_append,
      decodeBits_step_right root _ (rfl : (HTree.nb x l r).right = some r)]
    by_cases hleaf : r.isLeaf
    · obtain ⟨d2, rfl⟩ := (isLeaf_iff r).mp hleaf
      obtain ⟨rfl, rfl⟩ := pathTo_leaf hsub
      simp [HTree.data, HTree.isLeaf]
    · have hp : p ≠ [] := by
        intro hnil; subst hnil
        exact hleaf (by rw [pathTo_nil hsub]; rfl)
      rw [if_neg hleaf]
      exact ih rest hp

lemma generateCodes_sound :
    ∀ (t : HTree) (code : List Bool) (acc : List (Nat × List Bool)) (d : Nat)
      (p : List Bool), (d, p) ∈ generateCodes t code acc →
      (d, p) ∈ acc ∨
      (∃ q, PathTo t q d ∧ p = code ++ q ∧ (code = [] → q ≠ [])) ∨
      (code = [] ∧ t = .lf d ∧ p = [false]) := by
  intro t
  induction t with
  | lf x =>
    intro code acc d p hmem
    simp only [generateCodes] at hmem
    rcases List.mem_cons.mp hmem with hh | ht
    · obtain ⟨rfl, rfl⟩ : x = d ∧ (if code = [] then [false] else code) = p := by
        constructor <;> [skip; skip] <;> injection hh with h1 h2 <;> simp_all
      by_cases hc : code = []
      · right; right; exact ⟨hc, rfl, by simp [hc]⟩
      · right; left
        exact ⟨[], PathTo.done _, by simp [hc], fun h => absurd h hc⟩
    · exact Or.inl ht
  | nl x l ihl =>
    intro code acc d p hmem
    simp only [generateCodes] at hmem
    rcases ihl (code ++ [false]) acc d p hmem with h | ⟨q, hq, rfl, _⟩ | ⟨hc, _, _⟩
    · exact Or.inl h
    · right; left
      exact ⟨false :: q, PathTo.goLeftNl x l q d hq, by simp, by simp⟩
    · exact absurd hc (by simp)
  | nr x r ihr =>
    intro code acc d p hmem
    simp only [generateCodes] at hmem
    rcases ihr (code ++ [true]) acc d p hmem with h | ⟨q, hq, rfl, _⟩ | ⟨hc, _, _⟩
    · exact Or.inl h
    · right; left
      exact ⟨true :: q, PathTo.goRightNr x r q d hq, by simp, by simp⟩
    · exact absurd hc (by simp)
  | nb x l r ihl ihr =>
    intro code acc d p hmem
    simp only [generateCodes] at hmem
    rcases ihr (code ++ [true]) _ d p hmem with h | ⟨q, hq, rfl, _⟩ | ⟨hc, _, _⟩
    · rcases ihl (code ++ [false]) acc d p h with h2 | ⟨q, hq, rfl, _⟩ | ⟨hc, _, _⟩
      · exact Or.inl h2
      · right; left
        exact ⟨false :: q, PathTo.goLeftNb x l r q d hq, by simp, by simp⟩
      · exact absurd hc (by simp)
    · right; left
      exact ⟨true :: q, PathTo.goRightNb x l r q d hq, by simp, by simp⟩
    · exact absurd hc (by simp)

lemma generateCodes_keeps :
    ∀ (t : HTree) (code : List Bool) (acc : List (Nat × List Bool)) (b : Nat),
      (assoc b acc).isSome → (assoc b (generateCodes t code acc)).isSome := by
  intro t
  induction t with
  | lf x =>
    intro code acc b hb
    simp only [generateCodes, assoc]
    split <;> simp [hb]
  | nl x l ihl => intro code acc b hb; exact ihl _ _ _ hb
  | nr x r ihr => intro code acc b hb; exact ihr _ _ _ hb
  | nb x l r ihl ihr =>
    intro code acc b hb
    exact ihr _ _ _ (ihl _ _ _ hb)

lemma generateCodes_complete :
    ∀ (t : HTree) (code : List Bool) (acc : List (Nat × List Bool)) (b : Nat),
      b ∈ leavesData t → (assoc b (generateCodes t code acc)).isSome := by
  intro t
  induction t with
  | lf x =>
    intro code acc b hb
    simp only [leavesData, List.mem_singleton] at hb
    subst hb
    simp [generateCodes, assoc]
  | nl x l ihl =>
    intro code acc b hb
    exact ihl _ _ _ hb
  | nr x r ihr =>
    intro code acc b hb
    exact ihr _ _ _ hb
  | nb x l r ihl ihr =>
    intro code acc b hb
    simp only [leavesData, List.mem_append] at hb
    rcases hb with hb | hb
    · exact generateCodes_keeps r _ _ b (ihl _ _ _ hb)
    · exact ihr _ _ _ hb

lemma extractMin_none_iff (pq : List (HTree × Nat)) :
    extractMin pq = none ↔ pq = [] := by
  cases pq with
  | nil => simp [extractMin]
  | cons x xs =>
    simp only [extractMin]
    constructor
    · intro h
      split at h
      · simp at h
      · split at h <;> simp at h
    · intro h; simp at h

lemma extractMin_length :
    ∀ (pq : List (HTree × Nat)) (m : HTree × Nat) (rest : List (HTree × Nat)),
      extractMin pq = some (m, rest) → rest.length = pq.length - 1 := by
  intro pq
  induction pq with
  | nil => intro m rest h; simp [extractMin] at h
  | cons x xs ih =>
    intro m rest h
    simp only [extractMin] at h
    split at h
    · rename_i hnone
      obtain rfl : xs = [] := (extractMin_none_iff xs).mp hnone
      simp only [Option.some.injEq, Prod.mk.injEq] at h
      obtain ⟨rfl, rfl⟩ := h
      simp
    · rename_i m2 rest2 hsome
      have h2 := ih m2 rest2 hsome
      have hxs : 1 ≤ xs.length := by
        by_contra hlen
        obtain rfl : xs = [] := List.length_eq_zero.mp (by omega)
        simp [extractMin] at hsome
      split at h <;>
        (simp only [Option.some.injEq, Prod.mk.injEq] at h
         obtain ⟨rfl, rfl⟩ := h) <;>
        simp only [List.length_cons] at * <;> omega

lemma extractMin_mem :
    ∀ (pq : List (HTree × Nat)) (m : HTree × Nat) (rest : List (HTree × Nat)),
      extractMin pq = some (m, rest) → ∀ x ∈ pq, x = m ∨ x ∈ rest := by
  intro pq
  induction pq with
  | nil => intro m rest h; simp [extractMin] at h
  | cons y ys ih =>
    intro m rest h x hx
    simp only [extractMin] at h
    split at h
    · rename_i hnone
      obtain rfl : ys = [] := (extractMin_none_iff ys).mp hnone
      simp only [Option.some.injEq, Prod.mk.injEq] at h
      obtain ⟨rfl, rfl⟩ := h
      simp at hx
      exact Or.inl hx
    · rename_i m2 rest2 hsome
      split at h <;>
        (simp only [Option.some.injEq, Prod.mk.injEq] at h
         obtain ⟨rfl, rfl⟩ := h)
      · rcases List.mem_cons.mp hx with rfl | hx
        · exact Or.inl rfl
        · exact Or.inr hx
      · rcases List.mem_cons.mp hx with rfl | hx
        · exact Or.inr (List.mem_cons_self _ _)
        · rcases ih _ rest2 hsome x hx with rfl | hx2
          · exact Or.inl rfl
          · exact Or.inr (List.mem_cons_of_mem _ hx2)

/-- The bytes at the leaves of all trees in the queue. -/
def pqLeaves (pq : List (HTree × Nat)) : List Nat :=
  pq.flatMap (fun p => leavesData p.1)

lemma buildLoop_one (fuel : Nat) (z : HTree × Nat) : buildLoop fuel [z] = [z] := by
  cases fuel with
  | zero => rfl
  | succ fuel => rw [buildLoop, if_pos (by simp)]

lemma buildLoop_step {pq : List (HTree × Nat)} (hsmall : ¬ pq.length ≤ 1)
    {l r : HTree × Nat} {pq1 pq2 : List (HTree × Nat)} (fuel : Nat)
    (he1 : extractMin pq = some (l, pq1)) (he2 : extractMin pq1 = some (r, pq2)) :
    buildLoop (fuel + 1) pq
      = buildLoop fuel (pq2 ++ [(.nb 0 l.1 r.1, l.2 + r.2)]) := by
  simp only [buildLoop, if_neg hsmall, he1, he2]

lemma buildLoop_internal :
    ∀ (fuel : Nat) (pq : List (HTree × Nat)), 2 ≤ pq.length →
      pq.length ≤ fuel + 1 →
      ∃ a b f, buildLoop fuel pq = [(.nb 0 a b, f)] := by
  intro fuel
  induction fuel with
  | zero => intro pq h2 h1; omega
  | succ fuel ih =>
    intro pq h2 hlen
    have hne : pq ≠ [] := by
      intro h; subst h; simp at h2
    cases he1 : extractMin pq with
    | none => exact absurd ((extractMin_none_iff pq).mp he1) hne
    | some p1 =>
      obtain ⟨l, pq1⟩ := p1
      have hlen1 : pq1.length = pq.length - 1 := extractMin_length pq l pq1 he1
      have hne1 : pq1 ≠ [] := by
        intro h; subst h; simp at hlen1; omega
      cases he2 : extractMin pq1 with
      | none => exact absurd ((extractMin_none_iff pq1).mp he2) hne1
      | some p2 =>
        obtain ⟨r, pq2⟩ := p2
        have hlen2 : pq2.length = pq1.length - 1 := extractMin_length pq1 r pq2 he2
        rw [buildLoop_step (by omega) fuel he1 he2]
        by_cases hbig : 2 ≤ (pq2 ++ [(HTree.nb 0 l.1 r.1, l.2 + r.2)]).length
        · refine ih _ hbig ?_
          simp only [List.length_append, List.length_cons, List.length_nil]
          omega
        · obtain rfl : pq2 = [] := by
            simp only [List.length_append, List.length_cons, List.length_nil] at hbig
            exact List.length_eq_zero.mp (by omega)
          rw [List.nil_append, buildLoop_one]
          exact ⟨l.1, r.1, l.2 + r.2, rfl⟩

lemma buildLoop_leaves_mem :
    ∀ (fuel : Nat) (pq : List (HTree × Nat)) (b : Nat),
      b ∈ pqLeaves pq → b ∈ pqLeaves (buildLoop fuel pq) := by
  intro fuel
  induction fuel with
  | zero => intro pq b hb; exact hb
  | succ fuel ih =>
    intro pq b hb
    by_cases hsmall : pq.length ≤ 1
    · rw [buildLoop, if_pos hsmall]; exact hb
    · have hne : pq ≠ [] := by
        intro h; subst h; simp at hsmall
      cases he1 : extractMin pq with
      | none => exact absurd ((extractMin_none_iff pq).mp he1) hne
      | some p1 =>
        obtain ⟨l, pq1⟩ := p1
        have hlen1 : pq1.length = pq.length - 1 := extractMin_length pq l pq1 he1
        have hne1 : pq1 ≠ [] := by
          intro h; subst h; simp at hlen1; omega
        cases he2 : extractMin pq1 with
        | none => exact absurd ((extractMin_none_iff pq1).mp he2) hne1
        | some p2 =>
          obtain ⟨r, pq2⟩ := p2
          rw [buildLoop_step hsmall fuel he1 he2]
          apply ih
          simp only [pqLeaves, List.mem_flatMap] at hb ⊢
          obtain ⟨x, hxpq, hxb⟩ := hb
          rcases extractMin_mem pq l pq1 he1 x hxpq with rfl | hx1
          · exact ⟨(HTree.nb 0 x.1 r.1, x.2 + r.2), by simp,
              by simp [leavesData, hxb]⟩
          · rcases extractMin_mem pq1 r pq2 he2 x hx1 with rfl | hx2
            · exact ⟨(HTree.nb 0 l.1 x.1, l.2 + x.2), by simp,
                by simp [leavesData, hxb]⟩
            · exact ⟨x, by simp [hx2], hxb⟩

lemma two_mem_two_le_length {α : Type} {x y : α} :
    ∀ {l : List α}, x ∈ l → y ∈ l → x ≠ y → 2 ≤ l.length
  | [], hx, _, _ => absurd hx (List.not_mem_nil x)
  | [z], hx, hy, hxy => by
    simp only [List.mem_singleton] at hx hy
    subst hx; subst hy
    exact absurd rfl hxy
  | _ :: _ :: _, _, _, _ => by
    simp only [List.length_cons]
    omega

lemma mem_huffFreqs {data : List Nat} {b : Nat} (hb : b ∈ data) (hlt : b < 256) :
    (b, data.count b) ∈ huffFreqs data := by
  simp only [huffFreqs, List.mem_filterMap, List.mem_range]
  refine ⟨b, hlt, ?_⟩
  rw [if_neg]
  simp only [List.count_eq_zero]
  intro h
  exact h hb

lemma length_flatMap {α β : Type} (l : List α) (f : α → List β) :
    (l.flatMap f).length = (l.map (fun a => (f a).length)).sum := by
  induction l with
  | nil => simp
  | cons a t ih => simp [ih]

lemma buildTree_spec (data : List Nat) (a b : Nat) (ha : a ∈ data)
    (hb2 : b ∈ data) (hab : a ≠ b) (hbytes : ∀ c ∈ data, c < 256) :
    ∃ l r, buildTree data = some (.nb 0 l r) ∧
      ∀ c ∈ data, c < 256 → c ∈ leavesData (.nb 0 l r) := by
  have hlen : 2 ≤ (huffFreqs data).length :=
    two_mem_two_le_length (mem_huffFreqs ha (hbytes a ha))
      (mem_huffFreqs hb2 (hbytes b hb2)) (by simp [hab])
  have hlen2 : 2 ≤ ((huffFreqs data).map (fun p => (HTree.lf p.1, p.2))).length := by
    simpa using hlen
  obtain ⟨l, r, f, hbl⟩ := buildLoop_internal
    ((huffFreqs data).map (fun p => (HTree.lf p.1, p.2))).length
    ((huffFreqs data).map (fun p => (HTree.lf p.1, p.2))) hlen2 (by omega)
  refine ⟨l, r, ?_, ?_⟩
  · simp only [buildTree, hbl]
  · intro c hc hc256
    have hmem0 : c ∈ pqLeaves ((huffFreqs data).map (fun p => (HTree.lf p.1, p.2))) := by
      simp only [pqLeaves, List.mem_flatMap]
      exact ⟨(HTree.lf c, data.count c),
        List.mem_map.mpr ⟨(c, data.count c), mem_huffFreqs hc hc256, rfl⟩,
        by simp [leavesData]⟩
    have := buildLoop_leaves_mem
      ((huffFreqs data).map (fun p => (HTree.lf p.1, p.2))).length _ c hmem0
    rw [hbl] at this
    simpa [pqLeaves] using this

lemma codeTable_path {root : HTree} (hroot : ∀ d, root ≠ .lf d) {b : Nat}
    (hb : b ∈ leavesData root) :
    ∃ p, assoc b (generateCodes root [] []) = some p ∧ PathTo root p b ∧ p ≠ [] := by
  have hsome := generateCodes_complete root [] [] b hb
  cases hp : assoc b (generateCodes root [] []) with
  | none => rw [hp] at hsome; simp at hsome
  | some p =>
    have hmem := assoc_mem hp
    rcases generateCodes_sound root [] [] b p hmem with h | ⟨q, hq, hpq, hne⟩ | ⟨_, hlf, _⟩
    · simp at h
    · rw [List.nil_append] at hpq
      subst hpq
      exact ⟨p, rfl, hq, hne rfl⟩
    · exact absurd hlf (hroot b)

lemma decodeBits_flat (root : HTree) (tbl : List (Nat × List Bool)) :
    ∀ xs : List Nat,
      (∀ b ∈ xs, ∃ p, assoc b tbl = some p ∧ PathTo root p b ∧ p ≠ []) →
      decodeBits root root (xs.flatMap (fun b => (assoc b tbl).getD [])) = some xs := by
  intro xs
  induction xs with
  | nil => intro _; rfl
  | cons b xs ih =>
    intro hall
    obtain ⟨p, hp, hpath, hpne⟩ := hall b (List.mem_cons_self _ _)
    rw [List.flatMap_cons, hp, Option.getD_some,
      decodeBits_path root hpath _ hpne,
      ih (fun c hc => hall c (List.mem_cons_of_mem _ hc))]
    rfl

lemma exists_cons_of_length_succ {α : Type} {l : List α} {n : Nat}
    (h : l.length = n + 1) : ∃ a t, l = a :: t ∧ t.length = n := by
  cases l with
  | nil => simp at h
  | cons a t => exact ⟨a, t, rfl, by simpa using h⟩

lemma bits_byteVal_len8 (c : List Bool) (hc : c.length = 8) :
    bitsOfByte (byteVal c) = c := by
  obtain ⟨a0, c1, rfl, hc1⟩ := exists_cons_of_length_succ (n := 7) hc
  obtain ⟨a1, c2, rfl, hc2⟩ := exists_cons_of_length_succ (n := 6) hc1
  obtain ⟨a2, c3, rfl, hc3⟩ := exists_cons_of_length_succ (n := 5) hc2
  obtain ⟨a3, c4, rfl, hc4⟩ := exists_cons_of_length_succ (n := 4) hc3
  obtain ⟨a4, c5, rfl, hc5⟩ := exists_cons_of_length_succ (n := 3) hc4
  obtain ⟨a5, c6, rfl, hc6⟩ := exists_cons_of_length_succ (n := 2) hc5
  obtain ⟨a6, c7, rfl, hc7⟩ := exists_cons_of_length_succ (n := 1) hc6
  obtain ⟨a7, c8, rfl, hc8⟩ := exists_cons_of_length_succ (n := 0) hc7
  obtain rfl : c8 = [] := List.length_eq_zero.mp hc8
  revert a0 a1 a2 a3 a4 a5 a6 a7
  decide

lemma pack_unpack :
    ∀ (fuel : Nat) (bits : List Bool), bits.length ≤ fuel →
      ∃ pad, (pack fuel bits).flatMap bitsOfByte = bits ++ List.replicate pad false := by
  intro fuel
  induction fuel with
  | zero =>
    intro bits h
    obtain rfl : bits = [] := List.length_eq_zero.mp (by omega)
    exact ⟨0, by simp [pack]⟩
  | succ fuel ih =>
    intro bits h
    match bits with
    | [] => exact ⟨0, by simp [pack]⟩
    | b :: bs =>
      rw [pack]
      have hlen8 : ((b :: bs).take 8
          ++ List.replicate (8 - ((b :: bs).take 8).length) false).length = 8 := by
        simp only [List.length_append, List.length_replicate, List.length_take]
        omega
      obtain ⟨pad, hpad⟩ := ih ((b :: bs).drop 8) (by
        simp only [List.length_drop, List.length_cons] at *
        omega)
      rw [List.flatMap_cons, bits_byteVal_len8 _ hlen8, hpad]
      by_cases hlong : 8 ≤ (b :: bs).length
      · have htk : ((b :: bs).take 8).length = 8 := by
          simp only [List.length_take]
          omega
        refine ⟨pad, ?_⟩
        rw [htk]
        simp only [Nat.sub_self, List.replicate_zero, List.append_nil]
        rw [← List.append_assoc, List.take_append_drop]
      · have hdrop : (b :: bs).drop 8 = [] := by
          rw [List.drop_eq_nil_iff_le]
          omega
        have htake : (b :: bs).take 8 = b :: bs := by
          rw [List.take_of_length_le]
          omega
        rw [hdrop, htake] at *
        refine ⟨8 - (b :: bs).length + pad, ?_⟩
        rw [List.nil_append, List.append_assoc, List.replicate_add]
      exact fun hx => List.noConfusion hx

/-- C3: for every non-empty byte buffer `x` with at least two distinct byte
values, if `(c, root) = Huffman::compress(x)` and `n` is the exact total bit
count (the sum over the bytes of `x` of the length of each byte's code in
the table derived from `root`), then `Huffman::decompress(c, root, n) = x`:
the packed, zero-padded payload truncated to `n` bits and decoded by the
tree walk reproduces the input exactly. -/
theorem huffman_compress_decompress_roundtrip (x : List Nat)
    (hbytes : ∀ c ∈ x, c < 256) (a b : Nat) (ha : a ∈ x) (hb : b ∈ x)
    (hab : a ≠ b) :
    Huffman.decompress (Huffman.compress x).1 (Huffman.compress x).2
      (huffTotalBits x) = some x := by
  obtain ⟨l, r, hbt, hleaves⟩ := buildTree_spec x a b ha hb hab hbytes
  have hxne : x ≠ [] := by intro h; subst h; simp at ha
  have hcomp : Huffman.compress x
      = (pack (huffEncodedBits x).length (huffEncodedBits x), some (HTree.nb 0 l r)) := by
    simp only [Huffman.compress, if_neg hxne, hbt]
  have htbl : huffCodeTable x = generateCodes (HTree.nb 0 l r) [] [] := by
    simp only [huffCodeTable, hbt]
  have hall : ∀ c ∈ x, ∃ p, assoc c (huffCodeTable x) = some p ∧
      PathTo (HTree.nb 0 l r) p c ∧ p ≠ [] := by
    intro c hc
    rw [htbl]
    exact codeTable_path (fun d h => by simp at h) (hleaves c hc (hbytes c hc))
  have hencne : huffEncodedBits x ≠ [] := by
    match x, hxne with
    | c0 :: x', _ =>
      obtain ⟨p, hp, _, hpne⟩ := hall c0 (List.mem_cons_self _ _)
      simp only [huffEncodedBits] at *
      rw [List.flatMap_cons, hp, Option.getD_some]
      simp [hpne]
  have hn : huffTotalBits x = (huffEncodedBits x).length := by
    simp only [huffTotalBits, huffEncodedBits, length_flatMap]
  have hpackne : pack (huffEncodedBits x).length (huffEncodedBits x) ≠ [] := by
    cases henc : huffEncodedBits x with
    | nil => exact absurd henc hencne
    | cons bb bs => simp [pack]
  obtain ⟨pad, hpad⟩ := pack_unpack (huffEncodedBits x).length (huffEncodedBits x) le_rfl
  rw [hcomp]
  simp only [Huffman.decompress, if_neg hpackne]
  rw [hpad, hn]
  have hlenbits : (huffEncodedBits x ++ List.replicate pad false).length
      = (huffEncodedBits x).length + pad := by simp
  by_cases hpadpos : 0 < pad
  · have hcond : 0 < (huffEncodedBits x).length ∧
        (huffEncodedBits x).length < (huffEncodedBits x ++ List.replicate pad false).length := by
      constructor
      · have := List.length_pos.mpr hencne
        omega
      · rw [hlenbits]; omega
    rw [if_pos hcond, List.take_left]
    exact decodeBits_flat (HTree.nb 0 l r) (huffCodeTable x) x hall
  · obtain rfl : pad = 0 := by omega
    have hcond : ¬ (0 < (huffEncodedBits x).length ∧
        (huffEncodedBits x).length < (huffEncodedBits x ++ List.replicate 0 false).length) := by
      rw [hlenbits]; omega
    rw [if_neg hcond]
    simp only [List.replicate_zero, List.append_nil]
    exact decodeBits_flat (HTree.nb 0 l r) (huffCodeTable x) x hall

/-- Witness for C3 at the concrete two-byte buffer `[0, 1]`. -/
theorem huffman_compress_decompress_roundtrip_witness :
    (∀ c ∈ ([0, 1] : List Nat), c < 256) ∧ (0 : Nat) ≠ 1 ∧
    Huffman.decompress (Huffman.compress [0, 1]).1 (Huffman.compress [0, 1]).2
      (huffTotalBits [0, 1]) = some [0, 1] :=
  ⟨by decide, by decide,
    huffman_compress_decompress_roundtrip [0, 1] (by decide) 0 1 (by decide)
      (by decide) (by decide)⟩

/-! ### LZW encoder/decoder simulation

A reachable encoder state is characterized by the list of completed words
(most recent first, `rws`) and the pending match `s`: the dictionary consists
of the 256 single-byte entries plus, for each completed word, that word
extended by the first byte of the following word (for the most recent word,
the first byte of `s`). The decoder lags exactly one entry behind. -/

/-- The non-initial encoder dictionary entries for completed words `ws`
(most recent first) followed by a word starting with byte `nxt`: codes
count down from `255 + ws.length`. -/
def encEntries : List (List Nat) → Nat → List (List Nat × Nat)
  | [], _ => []
  | w :: rest, nxt => (w ++ [nxt], 255 + (w :: rest).length) :: encEntries rest (w.headD 0)

/-- The corresponding decoder entries (code-indexed). -/
def decEntries : List (List Nat) → Nat → List (Nat × List Nat)
  | [], _ => []
  | w :: rest, nxt => (255 + (w :: rest).length, w ++ [nxt]) :: decEntries rest (w.headD 0)

lemma assoc_append {α β : Type} [DecidableEq α] (k : α) :
    ∀ l1 l2 : List (α × β), assoc k (l1 ++ l2)
      = match assoc k l1 with
        | some v => some v
        | none => assoc k l2 := by
  intro l1 l2
  induction l1 with
  | nil => simp [assoc]
  | cons p t ih =>
    obtain ⟨a, b⟩ := p
    simp only [List.cons_append, assoc]
    split <;> simp [ih]

lemma assoc_none_of_forall {α β : Type} [DecidableEq α] {k : α} :
    ∀ {l : List (α × β)}, (∀ p ∈ l, k ≠ p.1) → assoc k l = none
  | [], _ => rfl
  | (a, b) :: t, h => by
    simp only [assoc]
    rw [if_neg (h (a, b) (List.mem_cons_self _ _)), assoc_none_of_forall
      (fun p hp => h p (List.mem_cons_of_mem _ hp))]

lemma encEntries_swap_mem :
    ∀ (ws : List (List Nat)) (nxt : Nat) (k : List Nat) (c : Nat),
      (k, c) ∈ encEntries ws nxt ↔ (c, k) ∈ decEntries ws nxt := by
  intro ws
  induction ws with
  | nil => simp [encEntries, decEntries]
  | cons w rest ih =>
    intro nxt k c
    simp only [encEntries, decEntries, List.mem_cons, Prod.mk.injEq, ih]
    tauto

lemma decEntries_code_bound :
    ∀ (ws : List (List Nat)) (nxt : Nat) (c : Nat) (e : List Nat),
      (c, e) ∈ decEntries ws nxt → 256 ≤ c ∧ c ≤ 255 + ws.length := by
  intro ws
  induction ws with
  | nil => simp [decEntries]
  | cons w rest ih =>
    intro nxt c e hm
    simp only [decEntries, List.mem_cons, Prod.mk.injEq] at hm
    rcases hm with ⟨rfl, _⟩ | hm
    · simp only [List.length_cons]
      omega
    · have := ih _ c e hm
      simp only [List.length_cons]
      omega

lemma encEntries_key_len :
    ∀ (ws : List (List Nat)) (nxt : Nat) (k : List Nat) (c : Nat),
      (∀ w ∈ ws, w ≠ []) → (k, c) ∈ encEntries ws nxt → 2 ≤ k.length := by
  intro ws
  induction ws with
  | nil => simp [encEntries]
  | cons w rest ih =>
    intro nxt k c hws hm
    simp only [encEntries, List.mem_cons, Prod.mk.injEq] at hm
    rcases hm with ⟨rfl, _⟩ | hm
    · have hw : w ≠ [] := hws w (List.mem_cons_self _ _)
      have : 1 ≤ w.length := List.length_pos.mpr hw
      simp only [List.length_append, List.length_cons, List.length_nil]
      omega
    · exact ih _ k c (fun u hu => hws u (List.mem_cons_of_mem _ hu)) hm

lemma assoc_decEntries_of_mem :
    ∀ (ws : List (List Nat)) (nxt : Nat) (c : Nat) (e : List Nat),
      (c, e) ∈ decEntries ws nxt → assoc c (decEntries ws nxt) = some e := by
  intro ws
  induction ws with
  | nil => simp [decEntries]
  | cons w rest ih =>
    intro nxt c e hm
    simp only [decEntries, List.mem_cons, Prod.mk.injEq] at hm
    rcases hm with ⟨rfl, rfl⟩ | hm
    · simp [decEntries, assoc]
    · have hbound := decEntries_code_bound rest _ c e hm
      simp only [decEntries, assoc]
      rw [if_neg (by simp only [List.length_cons]; omega)]
      exact ih _ c e hm

lemma assoc_encInit_single : ∀ b : Nat, b < 256 → assoc [b] lzwEncInit = some b := by
  decide

lemma assoc_decInit_single : ∀ c : Nat, c < 256 → assoc c lzwDecInit = some [c] := by
  decide

lemma assoc_encInit_long {k : List Nat} (hk : k.length ≠ 1) :
    assoc k lzwEncInit = none := by
  apply assoc_none_of_forall
  intro p hp
  simp only [lzwEncInit, List.mem_map, List.mem_range] at hp
  obtain ⟨i, _, rfl⟩ := hp
  intro h
  rw [h] at hk
  simp at hk

lemma assoc_decInit_big {c : Nat} (hc : 256 ≤ c) : assoc c lzwDecInit = none := by
  apply assoc_none_of_forall
  intro p hp
  simp only [lzwDecInit, List.mem_map, List.mem_range] at hp
  obtain ⟨i, hi, rfl⟩ := hp
  omega

lemma headD_append_left {s : List Nat} (t : List Nat) (hs : s ≠ []) :
    (s ++ t).headD 0 = s.headD 0 := by
  cases s with
  | nil => exact absurd rfl hs
  | cons a s => rfl

/-- Invariant: the pending match `s` resolves in the encoder dictionary to a
code the decoder can resolve back to `s` (directly, or as the just-assigned
next code). -/
def LzwRes (w : List Nat) (rws : List (List Nat)) (s : List Nat) : Prop :=
  ∃ c, assoc s (encEntries (w :: rws) (s.headD 0) ++ lzwEncInit) = some c ∧
    (assoc c (decEntries rws (w.headD 0) ++ lzwDecInit) = some s ∨
     (assoc c (decEntries rws (w.headD 0) ++ lzwDecInit) = none ∧
      c = 255 + (w :: rws).length ∧ s = w ++ [s.headD 0]))

lemma lzwres_extend {w : List Nat} {rws : List (List Nat)} {s : List Nat}
    {bn : Nat} {c2 : Nat} (hs : s ≠ []) (hwords : ∀ u ∈ w :: rws, u ≠ [])
    (hnx : assoc (s ++ [bn])
        (encEntries (w :: rws) (s.headD 0) ++ lzwEncInit) = some c2) :
    LzwRes w rws (s ++ [bn]) := by
  have hhd : (s ++ [bn]).headD 0 = s.headD 0 := headD_append_left _ hs
  refine ⟨c2, by rw [hhd]; exact hnx, ?_⟩
  rw [assoc_append] at hnx
  cases hent : assoc (s ++ [bn]) (encEntries (w :: rws) (s.headD 0)) with
  | none =>
    rw [hent] at hnx
    have : assoc (s ++ [bn]) lzwEncInit = none := by
      apply assoc_encInit_long
      have : 1 ≤ s.length := List.length_pos.mpr hs
      simp only [List.length_append, List.length_cons, List.length_nil]
      omega
    rw [this] at hnx
    exact absurd hnx (by simp)
  | some c3 =>
    rw [hent] at hnx
    have hc32 : c3 = c2 := by injection hnx
    rw [hc32] at hent
    have hmem := assoc_mem hent
    simp only [encEntries, List.mem_cons, Prod.mk.injEq] at hmem
    rcases hmem with ⟨hkey, rfl⟩ | hmem
    · right
      refine ⟨?_, rfl, by rw [hhd]; exact hkey⟩
      rw [assoc_append]
      have h1 : assoc (255 + (w :: rws).length)
          (decEntries rws (w.headD 0)) = none := by
        apply assoc_none_of_forall
        intro p hp
        obtain ⟨pc, pe⟩ := p
        have := decEntries_code_bound rws _ pc pe hp
        simp only [List.length_cons]
        omega
      rw [h1]
      exact assoc_decInit_big (by simp only [List.length_cons]; omega)
    · left
      have hdec : (c2, s ++ [bn]) ∈ decEntries rws (w.headD 0) :=
        (encEntries_swap_mem rws _ _ _).mp hmem
      rw [assoc_append, assoc_decEntries_of_mem rws _ c2 (s ++ [bn]) hdec]

lemma lzwres_fresh {w : List Nat} {rws : List (List Nat)} {bn : Nat}
    (hwords : ∀ u ∈ w :: rws, u ≠ []) (hbn : bn < 256) :
    LzwRes w rws [bn] := by
  refine ⟨bn, ?_, Or.inl ?_⟩
  · rw [assoc_append]
    have h1 : assoc [bn] (encEntries (w :: rws) (List.headD [bn] 0)) = none := by
      apply assoc_none_of_forall
      intro p hp
      obtain ⟨pk, pc⟩ := p
      have := encEntries_key_len (w :: rws) _ pk pc hwords hp
      intro h
      have h2 : [bn] = pk := h
      rw [← h2] at this
      simp at this
    rw [h1]
    exact assoc_encInit_single bn hbn
  · rw [assoc_append]
    have h1 : assoc bn (decEntries rws (w.headD 0)) = none := by
      apply assoc_none_of_forall
      intro p hp
      obtain ⟨pc, pe⟩ := p
      have := decEntries_code_bound rws _ pc pe hp
      omega
    rw [h1]
    exact assoc_decInit_single bn hbn

lemma lzw_sim_main :
    ∀ rin : List Nat, (∀ u ∈ rin, u < 256) →
    ∀ (w : List Nat) (rws : List (List Nat)) (s : List Nat),
      s ≠ [] → (∀ u ∈ w :: rws, u ≠ []) → LzwRes w rws s →
      lzwDecGo (decEntries rws (w.headD 0) ++ lzwDecInit)
          (255 + (w :: rws).length) w
          (lzwEncGo (encEntries (w :: rws) (s.headD 0) ++ lzwEncInit)
            (256 + (w :: rws).length) s rin)
        = some (s ++ rin) := by
  intro rin
  induction rin with
  | nil =>
    intro _ w rws s hs hwords hres
    have hw : w ≠ [] := hwords w (List.mem_cons_self _ _)
    obtain ⟨c, hc, hdec⟩ := hres
    simp only [lzwEncGo, if_neg hs, hc, Option.getD_some]
    rcases hdec with hsome | ⟨hnone, rfl, hkey⟩
    · simp only [lzwDecGo, hsome]
      simp
    · have hhd : s.headD 0 = w.headD 0 := by
        calc s.headD 0 = (w ++ [s.headD 0]).headD 0 := by rw [← hkey]
          _ = w.headD 0 := headD_append_left _ hw
      have hentry : w ++ [w.headD 0] = s := by
        rw [← hhd, ← hkey]
      simp only [lzwDecGo, hnone, if_pos rfl, hentry]
      simp
  | cons bn rin' ih =>
    intro hbytes w rws s hs hwords hres
    have hw : w ≠ [] := hwords w (List.mem_cons_self _ _)
    rcases Option.eq_none_or_eq_some
        (assoc (s ++ [bn]) (encEntries (w :: rws) (s.headD 0) ++ lzwEncInit))
      with hnx | ⟨c2, hnx⟩
    · -- mismatch: emit the code of s, insert s ++ [bn]
      obtain ⟨c, hc, hdec⟩ := hres
      simp only [lzwEncGo, hnx, hc, Option.getD_some]
      have harith1 : 255 + (w :: rws).length + 1 = 255 + (s :: w :: rws).length := by
        simp only [List.length_cons]
        omega
      have hmain := ih (fun u hu => hbytes u (List.mem_cons_of_mem _ hu))
        s (w :: rws) [bn] (by simp)
        (fun u hu => by
          rcases List.mem_cons.mp hu with rfl | hu2
          · exact hs
          · exact hwords u hu2)
        (lzwres_fresh (fun u hu => by
          rcases List.mem_cons.mp hu with rfl | hu2
          · exact hs
          · exact hwords u hu2) (hbytes bn (List.mem_cons_self _ _)))
      have harith2 : 256 + (w :: rws).length + 1 = 256 + (s :: w :: rws).length := by
        simp only [List.length_cons]
        omega
      have hcode : 255 + (s :: w :: rws).length = 256 + (w :: rws).length := by
        simp only [List.length_cons]
        omega
      have henceq : encEntries (s :: w :: rws) (List.headD [bn] 0) ++ lzwEncInit
          = (s ++ [bn], 256 + (w :: rws).length)
            :: (encEntries (w :: rws) (s.headD 0) ++ lzwEncInit) := by
        simp only [encEntries, List.cons_append, List.headD, hcode]
      have hdeceq : (255 + (w :: rws).length, w ++ [s.headD 0])
            :: (decEntries rws (w.headD 0) ++ lzwDecInit)
          = decEntries (w :: rws) (s.headD 0) ++ lzwDecInit := by
        simp only [decEntries, List.cons_append]
      rw [henceq, ← harith1, ← harith2] at hmain
      rcases hdec with hsome | ⟨hnone, rfl, hkey⟩
      · simp only [lzwDecGo, hsome]
        rw [hdeceq, hmain]
        simp
      · have hhd2 : s.headD 0 = w.headD 0 := by
          calc s.headD 0 = (w ++ [s.headD 0]).headD 0 := by rw [← hkey]
            _ = w.headD 0 := headD_append_left _ hw
        have hentry : w ++ [w.headD 0] = s := by
          rw [← hhd2, ← hkey]
        simp only [lzwDecGo, hnone, if_pos rfl, if_true, hentry]
        rw [hdeceq, hmain]
        simp
    · -- match extends: no emission
      have hres2 := lzwres_extend hs hwords hnx
      have hhd : (s ++ [bn]).headD 0 = s.headD 0 := headD_append_left _ hs
      have hmain := ih (fun u hu => hbytes u (List.mem_cons_of_mem _ hu))
        w rws (s ++ [bn]) (by simp) hwords hres2
      rw [hhd] at hmain
      simp only [lzwEncGo, hnx]
      rw [hmain]
      simp

lemma flatMap_pack2_length_even (codes : List Nat) :
    (codes.flatMap (fun c => [c % 256, c / 256 % 256])).length % 2 = 0 := by
  induction codes with
  | nil => simp
  | cons c r ih =>
    rw [List.flatMap_cons, List.length_append]
    simp only [List.length_cons, List.length_nil]
    omega

lemma unpack_flatMap_pack2 (codes : List Nat) (h : ∀ c ∈ codes, c < 65536) :
    unpackCodes (codes.flatMap (fun c => [c % 256, c / 256 % 256])) = codes := by
  induction codes with
  | nil => rfl
  | cons c r ih =>
    rw [List.flatMap_cons]
    show (c % 256 + c / 256 % 256 * 256) :: unpackCodes (r.flatMap _)
      = c :: r
    rw [ih (fun u hu => h u (List.mem_cons_of_mem _ hu))]
    have hc : c < 65536 := h c (List.mem_cons_self _ _)
    have : c % 256 + c / 256 % 256 * 256 = c := by omega
    rw [this]

/-- C4 (amended): the LZW codec of src/include/lzw.hpp round-trips —
`LZW::decompress (LZW::compress x) = x` — for every byte buffer `x` whose
encoding emits only codes below 65536 (equivalently, whenever the 2-byte
packing is lossless).  This covers the empty buffer, single bytes, runs,
and the classic `"TOBEORNOTTOBEORTOBEORNOT"`; it fails only once the
unbounded dictionary makes the encoder emit a code ≥ 65536 (see the
counterexample). -/
theorem lzw_compress_decompress_roundtrip (x : List Nat)
    (hbytes : ∀ u ∈ x, u < 256)
    (hcodes : ∀ c ∈ LZW.compressCodes x, c < 65536) :
    LZW.decompress (LZW.compress x) = x := by
  match x with
  | [] => rfl
  | b0 :: xs =>
    have hb0 : b0 < 256 := hbytes b0 (List.mem_cons_self _ _)
    have hstep0 : LZW.compressCodes (b0 :: xs) = lzwEncGo lzwEncInit 256 [b0] xs := by
      simp only [LZW.compressCodes, lzwEncGo, List.nil_append,
        assoc_encInit_single b0 hb0]
    match xs with
    | [] =>
      have hcodes1 : LZW.compressCodes [b0] = [b0] := by
        rw [hstep0]
        simp only [lzwEncGo, assoc_encInit_single b0 hb0]
        rfl
      unfold LZW.decompress LZW.compress
      rw [hcodes1]
      have hpk : ([b0] : List Nat).flatMap (fun c => [c % 256, c / 256 % 256])
          = [b0 % 256, b0 / 256 % 256] := by simp
      rw [hpk]
      have h1 : b0 % 256 = b0 := Nat.mod_eq_of_lt hb0
      have h2 : b0 / 256 % 256 = 0 := by omega
      rw [h1, h2]
      simp only [List.length_cons, List.length_nil]
      rw [if_neg (by omega)]
      show (match unpackCodes [b0, 0] with
        | [] => []
        | c0 :: rest => _) = [b0]
      have hunp : unpackCodes [b0, 0] = [b0] := by
        show (b0 + 0 * 256) :: unpackCodes [] = [b0]
        simp [unpackCodes]
      rw [hunp]
      simp only [assoc_decInit_single b0 hb0, Option.getD_some, lzwDecGo]
      have h3 : b0 + 0 * 256 = b0 := by omega
      rw [h3]
      simp only [assoc_decInit_single b0 hb0, Option.getD_some, List.append_nil]
    | b1 :: xs2 =>
      have hb1 : b1 < 256 := hbytes b1 (by simp)
      have hlong : assoc ([b0] ++ [b1]) lzwEncInit = none :=
        assoc_encInit_long (by simp)
      have hstep1 : lzwEncGo lzwEncInit 256 [b0] (b1 :: xs2)
          = b0 :: lzwEncGo (encEntries [[b0]] (List.headD [b1] 0) ++ lzwEncInit)
              (256 + ([[b0]] : List (List Nat)).length) [b1] xs2 := by
        simp only [lzwEncGo, hlong, assoc_encInit_single b0 hb0, Option.getD_some]
        rfl
      have hmain := lzw_sim_main xs2
        (fun u hu => hbytes u (by simp [hu]))
        [b0] [] [b1] (by simp) (by simp)
        (lzwres_fresh (by simp) hb1)
      -- decEntries [] ([b0].headD 0) = [], so the decoder dictionary is lzwDecInit
      have hmain2 : lzwDecGo lzwDecInit 256 [b0]
          (lzwEncGo (encEntries [[b0]] (List.headD [b1] 0) ++ lzwEncInit)
            (256 + ([[b0]] : List (List Nat)).length) [b1] xs2)
          = some ([b1] ++ xs2) := hmain
      unfold LZW.decompress LZW.compress
      rw [hstep0, hstep1]
      have heven := flatMap_pack2_length_even
        (b0 :: lzwEncGo (encEntries [[b0]] (List.headD [b1] 0) ++ lzwEncInit)
          (256 + ([[b0]] : List (List Nat)).length) [b1] xs2)
      rw [if_neg (by simpa using heven)]
      rw [unpack_flatMap_pack2 _ (by
        intro c hc
        apply hcodes
        rw [hstep0, hstep1]
        exact hc)]
      simp only [assoc_decInit_single b0 hb0, Option.getD_some, hmain2]
      simp

/-- Witness for C4's amended theorem at the classic LZW input
`"TOBEORNOTTOBEORTOBEORNOT"` (as bytes). -/
theorem lzw_compress_decompress_roundtrip_witness :
    (∀ u ∈ ([84, 79, 66, 69, 79, 82, 78, 79, 84, 84, 79, 66, 69, 79, 82, 84,
        79, 66, 69, 79, 82, 78, 79, 84] : List Nat), u < 256) ∧
    (∀ c ∈ LZW.compressCodes [84, 79, 66, 69, 79, 82, 78, 79, 84, 84, 79, 66,
        69, 79, 82, 84, 79, 66, 69, 79, 82, 78, 79, 84], c < 65536) ∧
    LZW.decompress (LZW.compress [84, 79, 66, 69, 79, 82, 78, 79, 84, 84, 79,
        66, 69, 79, 82, 84, 79, 66, 69, 79, 82, 78, 79, 84])
      = [84, 79, 66, 69, 79, 82, 78, 79, 84, 84, 79, 66, 69, 79, 82, 84, 79,
        66, 69, 79, 82, 78, 79, 84] :=
  ⟨by decide, by decide,
    lzw_compress_decompress_roundtrip _ (by decide) (by decide)⟩
